import Mathlib

/-!
Verification of the football-transfer-spy repository.

Strings are modelled as `List Char` (`LC`).  Each definition below is a
shallow embedding of a Python function of the repository; the source file
and line numbers are given in the doc comments.
-/

abbrev LC := List Char

/-- Convenience: view a Lean string literal as the `List Char` model. -/
def s2l (s : String) : LC := s.data

/-- Python `re` whitespace class `\s` restricted to the code points that can
actually occur in the pipeline (ASCII whitespace incl. the `\x1c`-`\x1f`
separators, plus U+0085). -/
def isSpaceC (c : Char) : Bool :=
  decide (c.toNat = 32 ∨ c.toNat = 9 ∨ c.toNat = 10 ∨ c.toNat = 13 ∨ c.toNat = 11 ∨
    c.toNat = 12 ∨ c.toNat = 28 ∨ c.toNat = 29 ∨ c.toNat = 30 ∨ c.toNat = 31 ∨ c.toNat = 133)

/-- Python `re` word class `\w` on ASCII text: `[A-Za-z0-9_]`. -/
def isWordC (c : Char) : Bool :=
  decide ((65 ≤ c.toNat ∧ c.toNat ≤ 90) ∨ (97 ≤ c.toNat ∧ c.toNat ≤ 122) ∨
    (48 ≤ c.toNat ∧ c.toNat ≤ 57) ∨ c.toNat = 95)

/-- Characters that can appear in the output of `normalise`:
lowercase ASCII letters, digits, and the underscore. -/
def outC (c : Char) : Bool :=
  decide ((97 ≤ c.toNat ∧ c.toNat ≤ 122) ∨ (48 ≤ c.toNat ∧ c.toNat ≤ 57) ∨ c.toNat = 95)

/-- Python `str.lower` restricted to ASCII input (the only place `normalise`
applies it the text has already been folded to ASCII). -/
def lowerC (c : Char) : Char :=
  if 65 ≤ c.toNat ∧ c.toNat ≤ 90 then Char.ofNat (c.toNat + 32) else c

/-- Modelled from the composite `unicodedata.normalize("NFKD", ·)` followed by
`encode("ascii","ignore")` in `_create_logo_assignment.py` lines 20-21: a
representative table of non-ASCII letters whose NFKD decomposition starts with
an ASCII base letter.  Characters absent from the table have no ASCII
decomposition and are dropped, exactly as `encode("ascii","ignore")` drops
them. -/
def nfkdTable : List (Char × LC) :=
  [('À', ['A']), ('Á', ['A']), ('Â', ['A']), ('Ã', ['A']), ('Ä', ['A']), ('Å', ['A']),
   ('Ç', ['C']), ('È', ['E']), ('É', ['E']), ('Ê', ['E']), ('Ë', ['E']),
   ('Ì', ['I']), ('Í', ['I']), ('Î', ['I']), ('Ï', ['I']), ('Ñ', ['N']),
   ('Ò', ['O']), ('Ó', ['O']), ('Ô', ['O']), ('Õ', ['O']), ('Ö', ['O']),
   ('Ù', ['U']), ('Ú', ['U']), ('Û', ['U']), ('Ü', ['U']), ('Ý', ['Y']),
   ('à', ['a']), ('á', ['a']), ('â', ['a']), ('ã', ['a']), ('ä', ['a']), ('å', ['a']),
   ('ç', ['c']), ('è', ['e']), ('é', ['e']), ('ê', ['e']), ('ë', ['e']),
   ('ì', ['i']), ('í', ['i']), ('î', ['i']), ('ï', ['i']), ('ñ', ['n']),
   ('ò', ['o']), ('ó', ['o']), ('ô', ['o']), ('õ', ['o']), ('ö', ['o']),
   ('ù', ['u']), ('ú', ['u']), ('û', ['u']), ('ü', ['u']), ('ý', ['y']), ('ÿ', ['y']),
   ('ā', ['a']), ('ă', ['a']), ('ą', ['a']), ('ć', ['c']), ('č', ['c']),
   ('ē', ['e']), ('ė', ['e']), ('ę', ['e']), ('ě', ['e']), ('ğ', ['g']),
   ('ń', ['n']), ('ň', ['n']), ('ō', ['o']), ('ő', ['o']), ('ř', ['r']),
   ('ś', ['s']), ('ş', ['s']), ('š', ['s']), ('ū', ['u']), ('ů', ['u']), ('ű', ['u']),
   ('ź', ['z']), ('ż', ['z']), ('ž', ['z'])]

/-- One character of the NFKD + ASCII-ignore step: ASCII code points pass
through unchanged, decomposable letters yield their ASCII base letter, all
other non-ASCII code points are dropped. -/
def asciiFold (c : Char) : LC :=
  if c.toNat < 128 then [c]
  else
    match nfkdTable.find? (fun p => p.1 == c) with
    | some p => p.2
    | none => []

/-- NFKD + ASCII-ignore over a whole string. -/
def foldAll : LC → LC
  | [] => []
  | c :: rest => asciiFold c ++ foldAll rest

/-- Character kept by `re.sub(r"[^\w\s]", "", ·)`. -/
def keepC (c : Char) : Bool := isWordC c || isSpaceC c

/-- Python `re.sub(r"\s+", "_", ·)`: every maximal run of whitespace becomes a
single underscore. -/
def collapseSp : LC → LC
  | [] => []
  | [c] => if isSpaceC c then ['_'] else [c]
  | c :: d :: rest =>
    if isSpaceC c then
      (if isSpaceC d then collapseSp (d :: rest) else '_' :: collapseSp (d :: rest))
    else c :: collapseSp (d :: rest)

/-- Drop the trailing characters satisfying `p` (the right half of a Python
`str.strip`). -/
def dropTrailP (p : Char → Bool) : LC → LC
  | [] => []
  | c :: rest =>
    match dropTrailP p rest with
    | [] => if p c then [] else [c]
    | r => c :: r

/-- Python `str.strip("_")`. -/
def stripU (cs : LC) : LC :=
  dropTrailP (fun c => c == '_') (cs.dropWhile (fun c => c == '_'))

/-- The Text Normalizer, `normalise` of `_create_logo_assignment.py`
lines 19-25: NFKD fold to ASCII, lowercase, delete non-word non-space
characters, collapse whitespace runs to `_`, strip outer underscores. -/
def normalise (cs : LC) : LC :=
  stripU (collapseSp (((foldAll cs).map lowerC).filter keepC))

-- ---------------------------------------------------------------------------
-- Lemmas about the normalizer
-- ---------------------------------------------------------------------------

lemma nfkdTable_ascii : ∀ p ∈ nfkdTable, ∀ d ∈ p.2, d.toNat < 128 := by decide

lemma mem_asciiFold_ascii {c d : Char} (h : d ∈ asciiFold c) : d.toNat < 128 := by
  unfold asciiFold at h
  by_cases hc : c.toNat < 128
  · rw [if_pos hc] at h
    simp only [List.mem_singleton] at h
    exact h ▸ hc
  · rw [if_neg hc] at h
    cases hfind : nfkdTable.find? (fun p => p.1 == c) with
    | none => rw [hfind] at h; simp at h
    | some p =>
      rw [hfind] at h
      exact nfkdTable_ascii p (List.mem_of_find?_eq_some hfind) d h

lemma mem_foldAll_ascii : ∀ (cs : LC), ∀ c ∈ foldAll cs, c.toNat < 128 := by
  intro cs
  induction cs with
  | nil => intro c hc; simp [foldAll] at hc
  | cons a t ih =>
    intro c hc
    simp only [foldAll, List.mem_append] at hc
    rcases hc with hc | hc
    · exact mem_asciiFold_ascii hc
    · exact ih c hc

lemma asciiFold_of_ascii {c : Char} (h : c.toNat < 128) : asciiFold c = [c] := by
  unfold asciiFold; rw [if_pos h]

lemma foldAll_id {cs : LC} (h : ∀ c ∈ cs, c.toNat < 128) : foldAll cs = cs := by
  induction cs with
  | nil => rfl
  | cons a t ih =>
    simp only [foldAll]
    rw [asciiFold_of_ascii (h a (by simp)), ih (fun c hc => h c (by simp [hc]))]
    rfl

lemma ofNat_upper_toNat : ∀ n : Nat, 65 ≤ n → n ≤ 90 → (Char.ofNat (n + 32)).toNat = n + 32 := by
  intro n h1 h2
  interval_cases n <;> decide

lemma lowerC_not_upper (c : Char) : ¬(65 ≤ (lowerC c).toNat ∧ (lowerC c).toNat ≤ 90) := by
  unfold lowerC
  split
  · next h =>
    rw [ofNat_upper_toNat c.toNat h.1 h.2]
    omega
  · next h => exact h

lemma lowerC_ascii {c : Char} (h : c.toNat < 128) : (lowerC c).toNat < 128 := by
  unfold lowerC
  split
  · next hu =>
    rw [ofNat_upper_toNat c.toNat hu.1 hu.2]
    omega
  · exact h

lemma lowerC_id_of_not_upper {c : Char} (h : ¬(65 ≤ c.toNat ∧ c.toNat ≤ 90)) : lowerC c = c := by
  unfold lowerC; rw [if_neg h]

lemma outC_word {c : Char} (h : outC c = true) : isWordC c = true := by
  simp only [outC, isWordC, decide_eq_true_eq] at *
  omega

lemma outC_ascii {c : Char} (h : outC c = true) : c.toNat < 128 := by
  simp only [outC, decide_eq_true_eq] at h
  omega

lemma outC_not_upper {c : Char} (h : outC c = true) : ¬(65 ≤ c.toNat ∧ c.toNat ≤ 90) := by
  simp only [outC, decide_eq_true_eq] at h
  omega

lemma outC_not_space {c : Char} (h : outC c = true) : isSpaceC c = false := by
  simp only [outC, decide_eq_true_eq] at h
  simp only [isSpaceC, decide_eq_false_iff_not]
  omega

lemma outC_of_word_notupper {c : Char} (hw : isWordC c = true)
    (hu : ¬(65 ≤ c.toNat ∧ c.toNat ≤ 90)) : outC c = true := by
  simp only [isWordC, decide_eq_true_eq] at hw
  simp only [outC, decide_eq_true_eq]
  omega

lemma mem_collapseSp {c : Char} : ∀ {l : LC}, c ∈ collapseSp l → c = '_' ∨ c ∈ l := by
  intro l
  induction l with
  | nil => intro h; simp [collapseSp] at h
  | cons a t ih =>
    cases t with
    | nil =>
      intro h
      simp only [collapseSp] at h
      split at h
      · simp at h; exact Or.inl h
      · simp at h; exact Or.inr (by simp [h])
    | cons d rest =>
      intro h
      simp only [collapseSp] at h
      split at h
      · split at h
        · rcases ih h with h' | h'
          · exact Or.inl h'
          · exact Or.inr (by simp [h'])
        · simp only [List.mem_cons] at h
          rcases h with h' | h'
          · exact Or.inl h'
          · rcases ih h' with h'' | h''
            · exact Or.inl h''
            · exact Or.inr (by simp [h''])
      · simp only [List.mem_cons] at h
        rcases h with h' | h'
        · exact Or.inr (by simp [h'])
        · rcases ih h' with h'' | h''
          · exact Or.inl h''
          · exact Or.inr (by simp [h''])

lemma collapseSp_id : ∀ {l : LC}, (∀ c ∈ l, isSpaceC c = false) → collapseSp l = l := by
  intro l
  induction l with
  | nil => intro _; rfl
  | cons a t ih =>
    cases t with
    | nil =>
      intro h
      simp only [collapseSp]
      rw [if_neg (by simp [h a (by simp)])]
    | cons d rest =>
      intro h
      simp only [collapseSp]
      rw [if_neg (by simp [h a (by simp)]), ih (fun c hc => h c (by simp [hc]))]

lemma collapseSp_all_space : ∀ {l : LC}, (∀ c ∈ l, isSpaceC c = true) →
    collapseSp l = [] ∨ collapseSp l = ['_'] := by
  intro l
  induction l with
  | nil => intro _; exact Or.inl rfl
  | cons a t ih =>
    cases t with
    | nil =>
      intro h
      simp only [collapseSp]
      rw [if_pos (h a (by simp))]
      exact Or.inr rfl
    | cons d rest =>
      intro h
      simp only [collapseSp]
      rw [if_pos (h a (by simp)), if_pos (h d (by simp))]
      exact ih (fun c hc => h c (by simp [hc]))

lemma dropTrailP_cons_of_nil {p : Char → Bool} {c : Char} {rest : LC}
    (h : dropTrailP p rest = []) : dropTrailP p (c :: rest) = if p c then [] else [c] := by
  rw [dropTrailP, h]

lemma dropTrailP_cons_of_ne {p : Char → Bool} {c : Char} {rest r : LC}
    (h : dropTrailP p rest = r) (hne : r ≠ []) : dropTrailP p (c :: rest) = c :: r := by
  rw [dropTrailP, h]
  cases r with
  | nil => exact absurd rfl hne
  | cons x xs => rfl

lemma mem_dropTrailP {p : Char → Bool} {c : Char} :
    ∀ {l : LC}, c ∈ dropTrailP p l → c ∈ l := by
  intro l
  induction l with
  | nil => intro h; simp [dropTrailP] at h
  | cons a t ih =>
    intro h
    cases hdt : dropTrailP p t with
    | nil =>
      rw [dropTrailP_cons_of_nil hdt] at h
      by_cases hp : p a
      · simp [hp] at h
      · simp [hp] at h
        simp [h]
    | cons x xs =>
      rw [dropTrailP_cons_of_ne hdt (by simp)] at h
      rcases List.mem_cons.mp h with h | h
      · simp [h]
      · exact List.mem_cons_of_mem a (ih (by rw [hdt]; exact h))

lemma dropTrailP_nil (p : Char → Bool) : dropTrailP p [] = [] := rfl

lemma dropTrailP_id_of_last (p : Char → Bool) {d : Char} (hd : p d = false) :
    ∀ init : LC, dropTrailP p (init ++ [d]) = init ++ [d] := by
  intro init
  induction init with
  | nil =>
    simp only [List.nil_append]
    rw [dropTrailP_cons_of_nil (dropTrailP_nil p), hd]
    rfl
  | cons a t ih =>
    rw [List.cons_append, dropTrailP_cons_of_ne ih (by simp)]

lemma dropTrailP_shape (p : Char → Bool) :
    ∀ l : LC, dropTrailP p l = [] ∨ ∃ init d, dropTrailP p l = init ++ [d] ∧ p d = false := by
  intro l
  induction l with
  | nil => exact Or.inl rfl
  | cons a t ih =>
    rcases ih with ih0 | ⟨init, d, hinit, hd⟩
    · rw [dropTrailP_cons_of_nil ih0]
      by_cases hp : p a
      · rw [if_pos hp]; exact Or.inl rfl
      · rw [if_neg hp]
        exact Or.inr ⟨[], a, by simp, by simp [hp]⟩
    · refine Or.inr ⟨a :: init, d, ?_, hd⟩
      rw [dropTrailP_cons_of_ne hinit (by simp), List.cons_append]

lemma dropTrailP_head (p : Char → Bool) (c : Char) (rest : LC) :
    dropTrailP p (c :: rest) = [] ∨ ∃ t', dropTrailP p (c :: rest) = c :: t' := by
  cases hdt : dropTrailP p rest with
  | nil =>
    rw [dropTrailP_cons_of_nil hdt]
    by_cases hp : p c
    · rw [if_pos hp]; exact Or.inl rfl
    · rw [if_neg hp]; exact Or.inr ⟨[], rfl⟩
  | cons x xs => exact Or.inr ⟨x :: xs, dropTrailP_cons_of_ne hdt (by simp)⟩

lemma dropWhile_shape (p : Char → Bool) (l : LC) :
    l.dropWhile p = [] ∨ ∃ c t, l.dropWhile p = c :: t ∧ p c = false := by
  induction l with
  | nil => exact Or.inl rfl
  | cons c t ih =>
    by_cases h : p c
    · rw [List.dropWhile_cons_of_pos h]; exact ih
    · exact Or.inr ⟨c, t, List.dropWhile_cons_of_neg (by simp [h]), by simp [h]⟩

lemma mem_stripU {c : Char} {l : LC} (h : c ∈ stripU l) : c ∈ l :=
  (List.dropWhile_sublist _).mem (mem_dropTrailP h)

lemma stripU_idem (l : LC) : stripU (stripU l) = stripU l := by
  unfold stripU
  rcases dropWhile_shape (fun c => c == '_') l with hu | ⟨c, t, hu, hc⟩
  · rw [hu]; rfl
  · rw [hu]
    rcases dropTrailP_shape (fun c => c == '_') (c :: t) with hv | ⟨init, d, hv, hd⟩
    · rw [hv]; rfl
    · rcases dropTrailP_head (fun c => c == '_') c t with hv0 | ⟨t', hv0⟩
      · rw [hv0]; rfl
      · have he : c :: t' = init ++ [d] := hv0.symm.trans hv
        rw [hv0, List.dropWhile_cons_of_neg (by simp [hc]), he,
          dropTrailP_id_of_last (fun c => c == '_') hd init]

lemma collapseSp_no_space {c : Char} : ∀ {l : LC}, c ∈ collapseSp l → isSpaceC c = false := by
  intro l
  induction l with
  | nil => intro h; simp [collapseSp] at h
  | cons a t ih =>
    cases t with
    | nil =>
      intro h
      simp only [collapseSp] at h
      split at h
      · simp at h; subst h; decide
      · next hns => simp at h; subst h; simp [hns]
    | cons d rest =>
      intro h
      simp only [collapseSp] at h
      split at h
      · split at h
        · exact ih h
        · simp only [List.mem_cons] at h
          rcases h with h | h
          · subst h; decide
          · exact ih h
      · next hns =>
        simp only [List.mem_cons] at h
        rcases h with h | h
        · subst h; simp [hns]
        · exact ih h

lemma normalise_chars : ∀ (cs : LC), ∀ c ∈ normalise cs, outC c = true := by
  intro cs c hc
  unfold normalise at hc
  have h1 := mem_stripU hc
  have hnospace : isSpaceC c = false := collapseSp_no_space h1
  rcases mem_collapseSp h1 with h | h
  · subst h; decide
  · have hkeep : keepC c = true := List.of_mem_filter h
    have hmap := List.mem_filter.mp h |>.1
    rcases List.mem_map.mp hmap with ⟨d, _, hd⟩
    have hword : isWordC c = true := by
      simp only [keepC, Bool.or_eq_true] at hkeep
      rcases hkeep with h' | h'
      · exact h'
      · rw [hnospace] at h'; exact absurd h' (by simp)
    exact outC_of_word_notupper hword (hd ▸ lowerC_not_upper d)

lemma notword_not_upper {c : Char} (h : isWordC c = false) :
    ¬(65 ≤ c.toNat ∧ c.toNat ≤ 90) := by
  simp only [isWordC, decide_eq_false_iff_not] at h
  omega

/-- C3: the Text Normalizer is idempotent — `normalise (normalise x) = normalise x`
for every input string — and an input consisting solely of (ASCII) punctuation
and/or whitespace, i.e. of non-word characters, normalises to the empty string.
Totality ("no input raises") is inherent: `normalise` is a total function. -/
theorem c3_normalise_idempotent_and_total :
    (∀ cs : LC, normalise (normalise cs) = normalise cs) ∧
    (∀ cs : LC, (∀ c ∈ cs, c.toNat < 128 ∧ isWordC c = false) → normalise cs = []) := by
  constructor
  · intro cs
    have hch := normalise_chars cs
    have h1 : foldAll (normalise cs) = normalise cs :=
      foldAll_id (fun c hc => outC_ascii (hch c hc))
    have h2 : (normalise cs).map lowerC = normalise cs := by
      rw [List.map_congr_left (fun c hc => lowerC_id_of_not_upper (outC_not_upper (hch c hc)))]
      simp
    have h3 : (normalise cs).filter keepC = normalise cs :=
      List.filter_eq_self.mpr (fun c hc => by simp [keepC, outC_word (hch c hc)])
    have h4 : collapseSp (normalise cs) = normalise cs :=
      collapseSp_id (fun c hc => outC_not_space (hch c hc))
    calc normalise (normalise cs)
        = stripU (collapseSp (((foldAll (normalise cs)).map lowerC).filter keepC)) := rfl
      _ = stripU (normalise cs) := by rw [h1, h2, h3, h4]
      _ = normalise cs := stripU_idem _
  · intro cs h
    have hfold : foldAll cs = cs := foldAll_id (fun c hc => (h c hc).1)
    have hmap : cs.map lowerC = cs := by
      rw [List.map_congr_left
        (fun c hc => lowerC_id_of_not_upper (notword_not_upper (h c hc).2))]
      simp
    have hfilter : cs.filter keepC = cs.filter isSpaceC := by
      apply List.filter_congr
      intro c hc
      simp [keepC, (h c hc).2]
    have hsp : ∀ c ∈ cs.filter isSpaceC, isSpaceC c = true := fun c hc => List.of_mem_filter hc
    rcases collapseSp_all_space hsp with hc0 | hc0 <;>
      (unfold normalise; rw [hfold, hmap, hfilter, hc0]; rfl)

/-- Witness for C3: idempotence at a concrete diacritic-and-punctuation name, and
the all-punctuation/whitespace input `"?!. \t"` normalising to the empty string. -/
theorem c3_witness :
    normalise (normalise (s2l "  Ärsenal F.C.!!")) = normalise (s2l "  Ärsenal F.C.!!") ∧
    normalise (s2l "?!. \t") = [] :=
  ⟨c3_normalise_idempotent_and_total.1 (s2l "  Ärsenal F.C.!!"),
   c3_normalise_idempotent_and_total.2 (s2l "?!. \t") (by decide)⟩

lemma normalise_sanity1 : normalise (s2l "Arsenal F.C.") = s2l "arsenal_fc" := by decide

lemma normalise_sanity2 : normalise (s2l "  Ärsenal  F.C. ") = s2l "arsenal_fc" := by decide

-- ---------------------------------------------------------------------------
-- Tokenizer and the Fuzzy Entity Matcher (`_create_logo_assignment.py`)
-- ---------------------------------------------------------------------------

/-- Stop-word set of `_create_logo_assignment.py` lines 12-16. -/
def STOPWORDS : List LC :=
  [s2l "fc", s2l "f", s2l "c", s2l "afc", s2l "the", s2l "city", s2l "town",
   s2l "united", s2l "utd", s2l "football", s2l "club"]

/-- Python `str.split` on the single characters satisfying `p`: splits at every
separator occurrence, keeping empty pieces (`"".split("_") == [""]`,
`"a__b".split("_") == ["a","","b"]`). -/
def splitWhen (p : Char → Bool) : LC → List LC
  | [] => [[]]
  | c :: rest =>
    match splitWhen p rest with
    | [] => [[]]
    | t :: ts => if p c then [] :: t :: ts else (c :: t) :: ts

/-- Function `tokens` of `_create_logo_assignment.py` lines 27-31: the normalised form
split on `_`, dropping empty pieces and stop words (order kept; a Python `set`
of these is modelled downstream by counting distinct members). -/
def tokensOf (cs : LC) : List LC :=
  (splitWhen (fun c => c == '_') (normalise cs)).filter
    (fun t => !t.isEmpty && !STOPWORDS.contains t)

/-- Python prefix test: `needle` begins `hay`. -/
def leadsWith : LC → LC → Bool
  | [], _ => true
  | _ :: _, [] => false
  | a :: a2, b :: b2 => a == b && leadsWith a2 b2

/-- Python substring test `needle in hay` (true for the empty needle, as in
Python, where `"" in s` holds for every `s`). -/
def containsSub (needle : LC) : LC → Bool
  | [] => leadsWith needle []
  | c :: rest => leadsWith needle (c :: rest) || containsSub needle rest

/-- Python `sep.join(parts)`. -/
def joinSep (sep : LC) : List LC → LC
  | [] => []
  | [t] => t
  | t :: ts => t ++ sep ++ joinSep sep ts

/-- Keep the first occurrence of every element (used to count a list of tokens
as the Python `set` it denotes). -/
def dedupGo (seen : List LC) : List LC → List LC
  | [] => []
  | x :: rest => if seen.contains x then dedupGo seen rest else x :: dedupGo (x :: seen) rest

/-- Size of the intersection of the Python token *sets* denoted by the lists
`a` and `b`: the number of distinct elements of `a` that also occur in `b`
(`len(set(a) & set(b))`). -/
def interCount (a b : List LC) : Nat :=
  ((dedupGo [] a).filter (fun t => b.contains t)).length

/-- An asset descriptor, as built in `_create_logo_assignment.py` lines 42-49:
`league` is the directory name, `path` the relative locator, `stem` the
normalised file stem, `tokens` the token set of the stem. -/
structure Logo where
  league : LC
  path : LC
  stem : LC
  tokens : List LC
deriving DecidableEq

/-- Builds the `Logo` entry for one image file (lines 44-49). -/
def mkLogo (league fileStem fileName : LC) : Logo :=
  { league := league,
    path := s2l "club_logos_by_league/" ++ league ++ ['/'] ++ fileName,
    stem := normalise fileStem,
    tokens := tokensOf fileStem }

/-- Tier-4 score of one candidate, line 98: `len(club_tokens & logo["tokens"])`. -/
def scoreOf (ctoks : List LC) (l : Logo) : Nat := interCount ctoks l.tokens

/-- Tier-4 loop of `_create_logo_assignment.py` lines 95-101: fold over the pool
carrying Python's `best` / `best_score` variables (`best` is updated only on a
strictly larger score). -/
def loop4 (lg : LC) (ctoks : List LC) : List Logo → Option Logo × Nat → Option Logo × Nat
  | [], st => st
  | l :: rest, (b, bs) =>
    if l.league == lg then
      (if bs < scoreOf ctoks l then loop4 lg ctoks rest (some l, scoreOf ctoks l)
       else loop4 lg ctoks rest (b, bs))
    else loop4 lg ctoks rest (b, bs)

/-- Tier 4 (token-overlap scoring) of lines 93-104, including the final
`if best_score < 1: best = None` reset. -/
def tier4Code (logos : List Logo) (lg : LC) (ctoks : List LC) : Option Logo :=
  let st := loop4 lg ctoks logos (none, 0)
  if st.2 < 1 then none else st.1

/-- The per-club matching logic of `_create_logo_assignment.py` lines 66-104:
four sequential tier blocks, each guarded by `if not best`. -/
def resolveClub (logos : List Logo) (nm lg : LC) : Option Logo :=
  let club_norm := normalise nm
  let club_tokens := tokensOf nm
  let best1 : Option Logo := logos.find? (fun l => l.league == lg && l.stem == club_norm)
  let best2 : Option Logo :=
    match best1 with
    | some l => some l
    | none => logos.find? (fun l => l.league == lg && containsSub club_norm l.stem)
  let best3 : Option Logo :=
    match best2 with
    | some l => some l
    | none =>
      let base := joinSep (s2l "_") club_tokens
      logos.find? (fun l => l.league == lg && !base.isEmpty && containsSub base l.stem)
  match best3 with
  | some l => some l
  | none => tier4Code logos lg club_tokens

/-- Spec §4.7 tier 1: the first same-group candidate whose normalised stem
equals the normalised target. -/
def tierExactSpec (logos : List Logo) (nm lg : LC) : Option Logo :=
  logos.find? (fun l => l.league == lg && l.stem == normalise nm)

/-- Spec §4.7 tier 2: the first same-group candidate whose stem contains the
normalised target as a substring. -/
def tierContainSpec (logos : List Logo) (nm lg : LC) : Option Logo :=
  logos.find? (fun l => l.league == lg && containsSub (normalise nm) l.stem)

/-- Spec §4.7 tier 3: containment of the stop-word-filtered, underscore-joined
token sequence of the target, attempted only when that string is non-empty. -/
def tierBaseSpec (logos : List Logo) (nm lg : LC) : Option Logo :=
  let base := joinSep (s2l "_") (tokensOf nm)
  if base.isEmpty then none
  else logos.find? (fun l => l.league == lg && containsSub base l.stem)

/-- Spec §4.7 tier 4: among same-group candidates, the largest token-set
intersection wins; a result needs intersection size ≥ 1; ties go to the
earliest candidate in pool order. -/
def tierOverlapSpec (logos : List Logo) (nm lg : LC) : Option Logo :=
  let ctoks := tokensOf nm
  let sg := logos.filter (fun l => l.league == lg)
  let m := (sg.map (scoreOf ctoks)).foldr max 0
  if m < 1 then none else sg.find? (fun l => scoreOf ctoks l == m)

/-- Largest same-group tier-4 score in the pool. -/
def maxSc (lg : LC) (ctoks : List LC) (logos : List Logo) : Nat :=
  ((logos.filter (fun l => l.league == lg)).map (scoreOf ctoks)).foldr max 0

lemma maxSc_cons (lg : LC) (ctoks : List LC) (l : Logo) (rest : List Logo) :
    maxSc lg ctoks (l :: rest) =
      if l.league == lg then max (scoreOf ctoks l) (maxSc lg ctoks rest)
      else maxSc lg ctoks rest := by
  simp only [maxSc, List.filter_cons]
  split
  · simp
  · rfl

lemma sc_le_maxSc {lg : LC} {ctoks : List LC} {l : Logo} :
    ∀ {logos : List Logo}, l ∈ logos → l.league == lg →
      scoreOf ctoks l ≤ maxSc lg ctoks logos := by
  intro logos
  induction logos with
  | nil => intro h; simp at h
  | cons a rest ih =>
    intro hmem hl
    rw [maxSc_cons]
    rcases List.mem_cons.mp hmem with h | h
    · subst h
      rw [if_pos hl]
      exact Nat.le_max_left _ _
    · by_cases ha : a.league == lg
      · rw [if_pos ha]
        exact Nat.le_trans (ih h hl) (Nat.le_max_right _ _)
      · rw [if_neg ha]
        exact ih h hl

lemma maxSc_le {lg : LC} {ctoks : List LC} {k : Nat} :
    ∀ {logos : List Logo}, (∀ x ∈ logos, x.league == lg → scoreOf ctoks x ≤ k) →
      maxSc lg ctoks logos ≤ k := by
  intro logos
  induction logos with
  | nil => intro _; exact Nat.zero_le k
  | cons a rest ih =>
    intro h
    rw [maxSc_cons]
    by_cases ha : a.league == lg
    · rw [if_pos ha]
      exact Nat.max_le.mpr ⟨h a (by simp) ha, ih (fun x hx => h x (by simp [hx]))⟩
    · rw [if_neg ha]
      exact ih (fun x hx => h x (by simp [hx]))

lemma loop4_skip_all {lg : LC} {ctoks : List LC} :
    ∀ {logos : List Logo} {b : Option Logo} {bs : Nat},
      (∀ x ∈ logos, x.league == lg → scoreOf ctoks x ≤ bs) →
      loop4 lg ctoks logos (b, bs) = (b, bs) := by
  intro logos
  induction logos with
  | nil => intro b bs _; rfl
  | cons l rest ih =>
    intro b bs h
    unfold loop4
    by_cases hl : l.league == lg
    · rw [if_pos hl, if_neg (by have := h l (by simp) hl; omega)]
      exact ih (fun x hx => h x (by simp [hx]))
    · rw [if_neg hl]
      exact ih (fun x hx => h x (by simp [hx]))

lemma loop4_snd {lg : LC} {ctoks : List LC} :
    ∀ {logos : List Logo} (b : Option Logo) (bs : Nat),
      (loop4 lg ctoks logos (b, bs)).2 = max bs (maxSc lg ctoks logos) := by
  intro logos
  induction logos with
  | nil => intro b bs; simp [loop4, maxSc]
  | cons l rest ih =>
    intro b bs
    unfold loop4
    rw [maxSc_cons]
    by_cases hl : l.league == lg
    · rw [if_pos hl, if_pos hl]
      by_cases hup : bs < scoreOf ctoks l
      · rw [if_pos hup, ih]
        omega
      · rw [if_neg hup, ih]
        omega
    · rw [if_neg hl, if_neg hl]
      exact ih b bs

lemma loop4_fst {lg : LC} {ctoks : List LC} :
    ∀ {logos : List Logo} (b : Option Logo) (bs : Nat),
      bs < maxSc lg ctoks logos →
      (loop4 lg ctoks logos (b, bs)).1 =
        logos.find? (fun l => l.league == lg && scoreOf ctoks l == maxSc lg ctoks logos) := by
  intro logos
  induction logos with
  | nil => intro b bs h; simp [maxSc] at h
  | cons l rest ih =>
    intro b bs h
    rw [maxSc_cons] at h
    by_cases hl : l.league == lg
    · rw [if_pos hl] at h
      unfold loop4
      rw [if_pos hl]
      by_cases hup : bs < scoreOf ctoks l
      · rw [if_pos hup]
        by_cases hmax : maxSc lg ctoks rest ≤ scoreOf ctoks l
        · have hmm : max (scoreOf ctoks l) (maxSc lg ctoks rest) = scoreOf ctoks l := by omega
          rw [List.find?_cons_of_pos _ (by simp [hl, maxSc_cons, hmm])]
          rw [loop4_skip_all (fun x hx hxl => Nat.le_trans (sc_le_maxSc hx hxl) hmax)]
        · have hlt : scoreOf ctoks l < maxSc lg ctoks rest := by omega
          have hmm : max (scoreOf ctoks l) (maxSc lg ctoks rest) = maxSc lg ctoks rest := by
            omega
          rw [List.find?_cons_of_neg _ (by simp [maxSc_cons, hl, hmm]; omega)]
          rw [ih (some l) (scoreOf ctoks l) (by omega)]
          simp [maxSc_cons, hl, hmm]
      · rw [if_neg hup]
        have hbm : bs < maxSc lg ctoks rest := by omega
        have hmm : max (scoreOf ctoks l) (maxSc lg ctoks rest) = maxSc lg ctoks rest := by
          omega
        rw [List.find?_cons_of_neg _ (by simp [maxSc_cons, hl, hmm]; omega)]
        rw [ih b bs hbm]
        simp [maxSc_cons, hl, hmm]
    · rw [if_neg hl] at h
      unfold loop4
      rw [if_neg hl]
      rw [List.find?_cons_of_neg _ (by simp [hl])]
      rw [ih b bs h]
      simp [maxSc_cons, hl]

lemma find?_filter {α : Type} (p q : α → Bool) (l : List α) :
    (l.filter p).find? q = l.find? (fun x => p x && q x) := by
  induction l with
  | nil => rfl
  | cons c t ih =>
    by_cases hp : p c
    · by_cases hq : q c
      · rw [List.filter_cons, if_pos (by simp [hp]), List.find?_cons_of_pos _ hq,
          List.find?_cons_of_pos _ (by simp [hp, hq])]
      · rw [List.filter_cons, if_pos (by simp [hp]), List.find?_cons_of_neg _ (by simp [hq]),
          List.find?_cons_of_neg _ (by simp [hq]), ih]
    · rw [List.filter_cons, if_neg (by simp [hp]), List.find?_cons_of_neg _ (by simp [hp]), ih]

lemma find?_decomp {α : Type} {p : α → Bool} :
    ∀ {l : List α} {a : α}, l.find? p = some a →
      ∃ xs ys, l = xs ++ a :: ys ∧ p a = true ∧ ∀ x ∈ xs, p x = false := by
  intro l
  induction l with
  | nil => intro a h; simp at h
  | cons c t ih =>
    intro a h
    by_cases hp : p c
    · rw [List.find?_cons_of_pos _ hp] at h
      obtain rfl : c = a := by injection h
      exact ⟨[], t, rfl, hp, by simp⟩
    · rw [List.find?_cons_of_neg _ (by simp [hp])] at h
      obtain ⟨xs, ys, hdec, hpa, hxs⟩ := ih h
      refine ⟨c :: xs, ys, by rw [hdec]; rfl, hpa, ?_⟩
      intro x hx
      rcases List.mem_cons.mp hx with h' | h'
      · subst h'; simp [hp]
      · exact hxs x h'

lemma find?_append_first {α : Type} {p : α → Bool} {xs : List α} {a : α} (ys : List α)
    (h1 : ∀ x ∈ xs, p x = false) (h2 : p a = true) :
    (xs ++ a :: ys).find? p = some a := by
  induction xs with
  | nil => rw [List.nil_append, List.find?_cons_of_pos _ h2]
  | cons c t ih =>
    rw [List.cons_append, List.find?_cons_of_neg _ (by simp [h1 c (by simp)])]
    exact ih (fun x hx => h1 x (by simp [hx]))

lemma tier4Code_eq_spec (logos : List Logo) (nm lg : LC) :
    tier4Code logos lg (tokensOf nm) = tierOverlapSpec logos nm lg := by
  simp only [tier4Code, tierOverlapSpec]
  have hsnd : (loop4 lg (tokensOf nm) logos (none, 0)).2 =
      max 0 (maxSc lg (tokensOf nm) logos) := loop4_snd none 0
  have hMdef : List.foldr max 0 (List.map (scoreOf (tokensOf nm))
      (List.filter (fun l => l.league == lg) logos)) = maxSc lg (tokensOf nm) logos := rfl
  rw [hMdef]
  rcases Nat.eq_zero_or_pos (maxSc lg (tokensOf nm) logos) with h0 | hpos
  · have hst : loop4 lg (tokensOf nm) logos (none, 0) = (none, 0) :=
      loop4_skip_all (fun x hx hxl => by
        have hle : scoreOf (tokensOf nm) x ≤ maxSc lg (tokensOf nm) logos :=
          sc_le_maxSc hx hxl
        omega)
    rw [hst]
    rw [if_pos (by omega), if_pos (show maxSc lg (tokensOf nm) logos < 1 by omega)]
  · rw [if_neg (by omega), if_neg (show ¬ maxSc lg (tokensOf nm) logos < 1 by omega)]
    rw [loop4_fst none 0 (show 0 < maxSc lg (tokensOf nm) logos from hpos), find?_filter]

lemma containsSub_nil_left : ∀ hay : LC, containsSub [] hay = true := by
  intro hay
  cases hay <;> rfl

/-- C1: the matcher tries its four tiers strictly in order — exact stem
equality, stem containment of the normalised name, containment of the
stop-word-filtered joined token sequence (attempted only when non-empty),
token-set overlap — and returns the result of the first tier that yields a
qualifying same-group candidate; once an earlier tier matches no later tier is
consulted, and if no tier matches the result is `none` (never an error:
`resolveClub` is a total function). -/
theorem c1_tier_order (logos : List Logo) (nm lg : LC) :
    resolveClub logos nm lg =
      ((tierExactSpec logos nm lg).orElse fun _ =>
        ((tierContainSpec logos nm lg).orElse fun _ =>
          ((tierBaseSpec logos nm lg).orElse fun _ => tierOverlapSpec logos nm lg))) := by
  simp only [resolveClub, tierExactSpec, tierContainSpec, tierBaseSpec, Option.orElse]
  cases h1 : logos.find? (fun l => l.league == lg && l.stem == normalise nm) with
  | some l => rfl
  | none =>
    cases h2 : logos.find? (fun l => l.league == lg && containsSub (normalise nm) l.stem) with
    | some l => rfl
    | none =>
      by_cases hb : (joinSep (s2l "_") (tokensOf nm)).isEmpty
      · rw [if_pos hb]
        rw [List.find?_eq_none.mpr (fun x _ => by simp [hb])]
        exact tier4Code_eq_spec logos nm lg
      · rw [if_neg hb]
        have hpred : (fun l : Logo => l.league == lg &&
              !(joinSep (s2l "_") (tokensOf nm)).isEmpty &&
              containsSub (joinSep (s2l "_") (tokensOf nm)) l.stem) =
            (fun l : Logo => l.league == lg &&
              containsSub (joinSep (s2l "_") (tokensOf nm)) l.stem) := by
          funext l
          simp [Bool.eq_false_iff.mpr hb]
        rw [hpred]
        cases h3 : logos.find? (fun l => l.league == lg &&
            containsSub (joinSep (s2l "_") (tokensOf nm)) l.stem) with
        | some l => rfl
        | none => exact tier4Code_eq_spec logos nm lg

/-- C6: characterisation of the token-overlap tier.  `tier4Code` returns
`some l` exactly when `l` is a same-group candidate with intersection size ≥ 1
whose score strictly exceeds every earlier same-group candidate's and is at
least every later same-group candidate's — i.e. the earliest candidate in pool
order attaining the maximal overlap, required to be ≥ 1.  Determinism across
runs is inherent (it is a function of the pool order). -/
theorem c6_overlap_tier_argmax (logos : List Logo) (lg : LC) (ctoks : List LC) (l : Logo) :
    tier4Code logos lg ctoks = some l ↔
      ∃ xs ys, logos = xs ++ l :: ys ∧ l.league = lg ∧ 1 ≤ scoreOf ctoks l ∧
        (∀ x ∈ xs, x.league = lg → scoreOf ctoks x < scoreOf ctoks l) ∧
        (∀ y ∈ ys, y.league = lg → scoreOf ctoks y ≤ scoreOf ctoks l) := by
  have hsnd : (loop4 lg ctoks logos (none, 0)).2 = max 0 (maxSc lg ctoks logos) :=
    loop4_snd none 0
  constructor
  · intro h
    simp only [tier4Code] at h
    by_cases hlt : (loop4 lg ctoks logos (none, 0)).2 < 1
    · rw [if_pos hlt] at h
      exact absurd h (by simp)
    · rw [if_neg hlt] at h
      have hpos : 0 < maxSc lg ctoks logos := by omega
      rw [loop4_fst none 0 hpos] at h
      obtain ⟨xs, ys, hdec, hpl, hxs⟩ := find?_decomp h
      rw [Bool.and_eq_true, beq_iff_eq, beq_iff_eq] at hpl
      obtain ⟨hsame, hscore⟩ := hpl
      refine ⟨xs, ys, hdec, hsame, by omega, ?_, ?_⟩
      · intro x hx hxl
        have hxmem : x ∈ logos := by rw [hdec]; exact List.mem_append_left _ hx
        have hle : scoreOf ctoks x ≤ maxSc lg ctoks logos :=
          sc_le_maxSc hxmem (by simp [hxl])
        have hne := hxs x hx
        rw [Bool.and_eq_false_iff] at hne
        rcases hne with hne | hne
        · rw [beq_eq_false_iff_ne] at hne
          exact absurd hxl hne
        · rw [beq_eq_false_iff_ne] at hne
          omega
      · intro y hy hyl
        have hymem : y ∈ logos := by
          rw [hdec]
          exact List.mem_append_right _ (List.mem_cons_of_mem l hy)
        have hyle : scoreOf ctoks y ≤ maxSc lg ctoks logos := sc_le_maxSc hymem (by simp [hyl])
        omega
  · rintro ⟨xs, ys, hdec, hsame, hge1, hpre, hpost⟩
    have hlmem : l ∈ logos := by rw [hdec]; exact List.mem_append_right _ (by simp)
    have hup : maxSc lg ctoks logos ≤ scoreOf ctoks l := by
      apply maxSc_le
      intro x hx hxl
      rw [hdec] at hx
      rcases List.mem_append.mp hx with h' | h'
      · exact Nat.le_of_lt (hpre x h' (by simpa using hxl))
      · rcases List.mem_cons.mp h' with h'' | h''
        · subst h''; exact Nat.le_refl _
        · exact hpost x h'' (by simpa using hxl)
    have hlo : scoreOf ctoks l ≤ maxSc lg ctoks logos := sc_le_maxSc hlmem (by simp [hsame])
    have hM : maxSc lg ctoks logos = scoreOf ctoks l := Nat.le_antisymm hup hlo
    simp only [tier4Code]
    rw [if_neg (by omega)]
    rw [loop4_fst none 0 (by omega)]
    have hMd : maxSc lg ctoks logos = scoreOf ctoks l := hM
    rw [hdec] at hMd ⊢
    apply find?_append_first
    · intro x hx
      by_cases hxl : x.league = lg
      · have := hpre x hx hxl
        rw [Bool.and_eq_false_iff]
        right
        rw [beq_eq_false_iff_ne]
        omega
      · rw [Bool.and_eq_false_iff]
        left
        rw [beq_eq_false_iff_ne]
        exact hxl
    · rw [Bool.and_eq_true, beq_iff_eq, beq_iff_eq]
      exact ⟨hsame, hMd.symm⟩

def logoW1 : Logo :=
  { league := s2l "pl", path := s2l "p1", stem := s2l "ax", tokens := [s2l "alpha"] }

def logoW2 : Logo :=
  { league := s2l "pl", path := s2l "p2", stem := s2l "ay", tokens := [s2l "alpha"] }

/-- Witness for C6 at a concrete two-candidate tie: the earlier candidate wins. -/
theorem c6_witness : tier4Code [logoW1, logoW2] (s2l "pl") [s2l "alpha"] = some logoW1 :=
  (c6_overlap_tier_argmax [logoW1, logoW2] (s2l "pl") [s2l "alpha"] logoW1).mpr
    ⟨[], [logoW2], rfl, rfl, by decide, by simp, by
      intro y hy _
      rcases List.mem_singleton.mp hy with rfl
      decide⟩

def logoOnlyX : Logo :=
  { league := s2l "l", path := s2l "p", stem := s2l "x", tokens := [s2l "x"] }

/-- Counterexample for C7: the target `"???"` normalises to the empty string,
yet the matcher does *not* resolve it to `none`: the empty string is a Python
substring of every stem, so the containment tier returns the pool's first
same-group candidate. -/
theorem c7_counterexample :
    normalise (s2l "???") = [] ∧
    resolveClub [logoOnlyX] (s2l "???") (s2l "l") = some logoOnlyX := by
  constructor
  · decide
  · decide

/-- C7 amended: a target that normalises to the empty string is still a valid
key (no error), but it matches *any* same-group candidate through the
containment tier; the matcher resolves it to `none` exactly when the pool
contains no same-group candidate at all. -/
theorem c7_empty_key_amended (logos : List Logo) (nm lg : LC) (h : normalise nm = []) :
    (resolveClub logos nm lg = none ↔ ∀ l ∈ logos, l.league ≠ lg) := by
  have htok : tokensOf nm = [] := by
    unfold tokensOf
    rw [h]
    rfl
  simp only [resolveClub, h, htok]
  constructor
  · intro hres
    by_contra hex
    push_neg at hex
    obtain ⟨l0, hmem, hl0⟩ := hex
    cases e1 : logos.find? (fun l => l.league == lg && l.stem == ([] : LC)) with
    | some l => rw [e1] at hres; exact absurd hres (by simp)
    | none =>
      cases e2 : logos.find? (fun l => l.league == lg && containsSub ([] : LC) l.stem) with
      | some l => rw [e1, e2] at hres; exact absurd hres (by simp)
      | none =>
        have : (logos.find? (fun l => l.league == lg && containsSub ([] : LC) l.stem)).isSome := by
          rw [List.find?_isSome]
          exact ⟨l0, hmem, by simp [hl0, containsSub_nil_left]⟩
        rw [e2] at this
        simp at this
  · intro hno
    have e1 : logos.find? (fun l => l.league == lg && l.stem == ([] : LC)) = none :=
      List.find?_eq_none.mpr (fun x hx => by simp [hno x hx])
    have e2 : logos.find? (fun l => l.league == lg && containsSub ([] : LC) l.stem) = none :=
      List.find?_eq_none.mpr (fun x hx => by simp [hno x hx])
    have e3 : logos.find? (fun l => l.league == lg &&
        !(joinSep (s2l "_") ([] : List LC)).isEmpty &&
        containsSub (joinSep (s2l "_") ([] : List LC)) l.stem) = none :=
      List.find?_eq_none.mpr (fun x hx => by simp [hno x hx])
    rw [e1, e2, e3]
    simp only [tier4Code]
    rw [loop4_skip_all (fun x hx hxl => absurd (by simpa using hxl) (hno x hx))]
    rfl

/-- Witness for the amended C7: with an empty pool the empty-normalising target
resolves to `none`. -/
theorem c7_amended_witness :
    normalise (s2l "???") = [] ∧ resolveClub [] (s2l "???") (s2l "l") = none :=
  ⟨by decide, (c7_empty_key_amended [] (s2l "???") (s2l "l") (by decide)).mpr (by simp)⟩

/-- A club entry of `clubs.json` as the matching loop sees it: the three fields
the loop touches plus the untouched remainder of the JSON object. -/
structure ClubEntry where
  name : Option LC
  league : Option LC
  logo : Option LC
  other : List (LC × LC)
deriving DecidableEq

/-- Python truthiness of `club.get(key)`: `None` and the empty string are falsy. -/
def optFalsy : Option LC → Bool
  | none => true
  | some s => s.isEmpty

/-- One iteration of the matching loop, `_create_logo_assignment.py`
lines 59-112: the guard `if not name or not league: continue`, then the
four-tier match; returns the updated entry and the increments of the
`matched` / `missing` counters. -/
def processEntry (logos : List Logo) (club : ClubEntry) : ClubEntry × Bool × Bool :=
  if optFalsy club.name || optFalsy club.league then (club, false, false)
  else
    match resolveClub logos (club.name.getD []) (club.league.getD []) with
    | some best => ({ club with logo := some best.path }, true, false)
    | none => (club, false, true)

/-- C10: an entry whose name or league field is missing or empty is skipped
without error: for *every* candidate pool the entry is returned entirely
unmodified and neither the matched nor the missing counter is incremented
(in particular no match is attempted — the result does not depend on the
pool). -/
theorem c10_entry_guard (logos : List Logo) (club : ClubEntry)
    (h : optFalsy club.name = true ∨ optFalsy club.league = true) :
    processEntry logos club = (club, false, false) := by
  unfold processEntry
  rcases h with h | h <;> rw [if_pos (by simp [h])]

/-- Witness for C10: an entry with a missing name is returned unchanged. -/
theorem c10_witness :
    processEntry []
        { name := none, league := some (s2l "l"), logo := none, other := [] } =
      ({ name := none, league := some (s2l "l"), logo := none, other := [] },
        false, false) :=
  c10_entry_guard [] _ (Or.inl rfl)

-- ---------------------------------------------------------------------------
-- Alias Generator (`_generate_clubs.py` lines 62-80)
-- ---------------------------------------------------------------------------

/-- Python `str.lower` over a whole string (ASCII case folding; non-ASCII code
points are left unchanged, which is all the alias claims need). -/
def lowerAll (cs : LC) : LC := cs.map lowerC

/-- Python `str.replace(".", "")`. -/
def removeDots (cs : LC) : LC := cs.filter (fun c => !(c == '.'))

/-- Python whitespace `str.strip()`. -/
def stripWS (cs : LC) : LC := dropTrailP isSpaceC (cs.dropWhile isSpaceC)

/-- Python `str.replace(pat, rep)` for a non-empty pattern: replace every
non-overlapping occurrence left to right.  The fuel argument is the length of
the remaining input, which bounds the number of steps. -/
def replaceGo (pat rep : LC) : Nat → LC → LC
  | 0, s => s
  | _ + 1, [] => []
  | n + 1, c :: rest =>
    if leadsWith pat (c :: rest) then rep ++ replaceGo pat rep n ((c :: rest).drop pat.length)
    else c :: replaceGo pat rep n rest

/-- Python `str.replace` (all patterns used by the repository are non-empty). -/
def replaceSub (s pat rep : LC) : LC :=
  if pat.isEmpty then s else replaceGo pat rep s.length s

/-- Python `[a-z0-9]` class. -/
def isLowNum (c : Char) : Bool :=
  decide ((97 ≤ c.toNat ∧ c.toNat ≤ 122) ∨ (48 ≤ c.toNat ∧ c.toNat ≤ 57))

/-- Python `re.findall(r"[a-z0-9]+", cs)`: maximal runs of `[a-z0-9]`. -/
def lowRuns (cs : LC) : List LC :=
  (splitWhen (fun c => !isLowNum c) cs).filter (fun t => !t.isEmpty)

/-- Lexicographic (code-point) order on strings, as used by Python `sorted`. -/
def lexLeB : LC → LC → Bool
  | [], _ => true
  | _ :: _, [] => false
  | a :: a2, b :: b2 => if a == b then lexLeB a2 b2 else decide (a < b)

/-- Function `build_aliases` of `_generate_clubs.py` lines 62-80: the base is the
lowercased, dot-stripped name; the trims, the initialism (for ≥ 2 words) and
the ampersand variant are added; stripped empties and duplicates are discarded
and the result is returned sorted. -/
def buildAliases (nm : LC) : List LC :=
  let base := removeDots (lowerAll nm)
  let trimClub := stripWS (replaceSub base (s2l " football club") [])
  let trimFC := stripWS (replaceSub (replaceSub base (s2l " f.c.") []) (s2l " fc") [])
  let words := lowRuns base
  let inits := words.filterMap List.head?
  let amp := replaceSub base (s2l "&") (s2l "and")
  let cands := [base, trimClub, trimFC] ++ (if 2 ≤ words.length then [inits] else []) ++ [amp]
  List.insertionSort (fun a b => lexLeB a b = true)
    (dedupGo [] ((cands.map stripWS).filter (fun t => !t.isEmpty)))

lemma dedupGo_subset {x : LC} : ∀ {l seen : List LC}, x ∈ dedupGo seen l → x ∈ l := by
  intro l
  induction l with
  | nil => intro seen h; simp [dedupGo] at h
  | cons y rest ih =>
    intro seen h
    unfold dedupGo at h
    by_cases hc : seen.contains y
    · rw [if_pos hc] at h
      exact List.mem_cons_of_mem y (ih h)
    · rw [if_neg hc] at h
      rcases List.mem_cons.mp h with h' | h'
      · simp [h']
      · exact List.mem_cons_of_mem y (ih h')

lemma mem_dedupGo {x : LC} : ∀ {l seen : List LC}, x ∈ l → seen.contains x = false →
    x ∈ dedupGo seen l := by
  intro l
  induction l with
  | nil => intro seen h _; simp at h
  | cons y rest ih =>
    intro seen h hs
    unfold dedupGo
    by_cases hc : seen.contains y
    · rw [if_pos hc]
      rcases List.mem_cons.mp h with h' | h'
      · subst h'; rw [hs] at hc; exact absurd hc (by simp)
      · exact ih h' hs
    · rw [if_neg hc]
      rcases List.mem_cons.mp h with h' | h'
      · subst h'; simp
      · by_cases hxy : x = y
        · subst hxy; simp
        · refine List.mem_cons_of_mem y (ih h' ?_)
          simp only [List.contains_cons, Bool.or_eq_false_iff]
          exact ⟨by simp [hxy], hs⟩

lemma dedupGo_nodup : ∀ (l seen : List LC), (dedupGo seen l).Nodup ∧
    ∀ x ∈ dedupGo seen l, seen.contains x = false := by
  intro l
  induction l with
  | nil => intro seen; exact ⟨List.nodup_nil, by simp [dedupGo]⟩
  | cons y rest ih =>
    intro seen
    unfold dedupGo
    by_cases hc : seen.contains y
    · rw [if_pos hc]
      exact ih seen
    · rw [if_neg hc]
      obtain ⟨hnd, hall⟩ := ih (y :: seen)
      constructor
      · refine List.nodup_cons.mpr ⟨?_, hnd⟩
        intro hy
        have := hall y hy
        simp at this
      · intro x hx
        rcases List.mem_cons.mp hx with h' | h'
        · subst h'
          simpa using hc
        · have := hall x h'
          simp only [List.contains_cons, Bool.or_eq_false_iff] at this
          exact this.2

/-- Counterexample for C4: `build_aliases` never applies the Text Normalizer;
for `"Arsenal F.C."` the canonical form `normalise` produces uses `_` as the
separator (`"arsenal_fc"`) and is not among the generated aliases
(`["af", "arsenal", "arsenal fc"]`). -/
theorem c4_counterexample :
    normalise (s2l "Arsenal F.C.") ∉ buildAliases (s2l "Arsenal F.C.") := by decide

lemma buildAliases_sanity :
    buildAliases (s2l "Arsenal F.C.") = [s2l "af", s2l "arsenal", s2l "arsenal fc"] := by decide

/-- C4 amended: the alias set is derived from `base = name.lower().replace(".","")`,
not from the Text Normalizer.  Whenever the stripped base is non-blank, the
result is non-empty and contains the stripped base; duplicates and empty
strings are always discarded (the result is duplicate-free and contains no
empty string). -/
theorem c4_aliases_amended (nm : LC) (h : stripWS (removeDots (lowerAll nm)) ≠ []) :
    buildAliases nm ≠ [] ∧
    stripWS (removeDots (lowerAll nm)) ∈ buildAliases nm ∧
    (buildAliases nm).Nodup ∧
    [] ∉ buildAliases nm := by
  simp only [buildAliases]
  set base := removeDots (lowerAll nm) with hbase
  set cands := [base, stripWS (replaceSub base (s2l " football club") []),
    stripWS (replaceSub (replaceSub base (s2l " f.c.") []) (s2l " fc") [])] ++
    (if 2 ≤ (lowRuns base).length then [(lowRuns base).filterMap List.head?] else []) ++
    [replaceSub base (s2l "&") (s2l "and")] with hcands
  have hmem0 : stripWS base ∈ (cands.map stripWS).filter (fun t => !t.isEmpty) := by
    refine List.mem_filter.mpr ⟨List.mem_map.mpr ⟨base, ?_, rfl⟩, ?_⟩
    · rw [hcands]; simp
    · cases hsb : stripWS base with
      | nil => exact absurd hsb h
      | cons c t => rfl
  have hmem1 : stripWS base ∈ dedupGo [] ((cands.map stripWS).filter (fun t => !t.isEmpty)) :=
    mem_dedupGo hmem0 rfl
  have hperm := List.perm_insertionSort (fun a b => lexLeB a b = true)
    (dedupGo [] ((cands.map stripWS).filter (fun t => !t.isEmpty)))
  have hmem : stripWS base ∈ List.insertionSort (fun a b => lexLeB a b = true)
      (dedupGo [] ((cands.map stripWS).filter (fun t => !t.isEmpty))) :=
    hperm.mem_iff.mpr hmem1
  refine ⟨?_, hmem, ?_, ?_⟩
  · exact List.ne_nil_of_mem hmem
  · exact hperm.nodup_iff.mpr (dedupGo_nodup _ _).1
  · intro hnil
    have hnil1 := dedupGo_subset (hperm.mem_iff.mp hnil)
    have := List.of_mem_filter hnil1
    simp at this

/-- Witness for the amended C4 at `"Arsenal F.C."`. -/
theorem c4_amended_witness :
    s2l "arsenal fc" ∈ buildAliases (s2l "Arsenal F.C.") ∧
    buildAliases (s2l "Arsenal F.C.") ≠ [] := by
  have h := c4_aliases_amended (s2l "Arsenal F.C.") (by decide)
  have he : stripWS (removeDots (lowerAll (s2l "Arsenal F.C."))) = s2l "arsenal fc" := by decide
  exact ⟨he ▸ h.2.1, h.1⟩

-- ---------------------------------------------------------------------------
-- Parsed-document model (BeautifulSoup trees) and the Document Table Extractor
-- ---------------------------------------------------------------------------

mutual

/-- A parsed HTML node: an element with tag, class attribute, optional `href`
attribute and children, or a text node. -/
inductive Node where
  | elem (tag : LC) (classes : List LC) (href : Option LC) (children : NodeList)
  | text (s : LC)

/-- A sequence of sibling nodes. -/
inductive NodeList where
  | nil
  | cons (n : Node) (rest : NodeList)

end

/-- Builds a `NodeList` from a Lean list (for concrete documents). -/
def nlist : List Node → NodeList
  | [] => NodeList.nil
  | n :: rest => NodeList.cons n (nlist rest)

mutual

/-- All proper descendants of a node in document (preorder) order — the search
space of BeautifulSoup `tag.find_all` / `tag.find`. -/
def descN : Node → List Node
  | Node.elem _ _ _ cs => descL cs
  | Node.text _ => []

/-- All nodes of a forest and their descendants, in document order. -/
def descL : NodeList → List Node
  | NodeList.nil => []
  | NodeList.cons n rest => n :: (descN n ++ descL rest)

end

def Node.tagIs (t : LC) : Node → Bool
  | Node.elem tg _ _ _ => tg == t
  | Node.text _ => false

def Node.classList : Node → List LC
  | Node.elem _ cl _ _ => cl
  | Node.text _ => []

def Node.hrefAttr : Node → Option LC
  | Node.elem _ _ h _ => h
  | Node.text _ => none

/-- The text-node contents among the descendants of `n`, in document order. -/
def textsOf (n : Node) : List LC :=
  (descN n).filterMap (fun m => match m with | Node.text s => some s | _ => none)

/-- BeautifulSoup `get_text(sep, strip=True)`: each text fragment stripped,
blank fragments dropped, the rest joined with `sep`. -/
def getTextStrip (sep : LC) (n : Node) : LC :=
  joinSep sep (((textsOf n).map stripWS).filter (fun t => !t.isEmpty))

/-- BeautifulSoup `class_=lambda c: c and marker in c`: some class string of
the node contains `marker` as a substring. -/
def hasClassContaining (marker : LC) (n : Node) : Bool :=
  (Node.classList n).any (fun cl => containsSub marker cl)

/-- BeautifulSoup `class_="marker"`: the node's class list contains the string. -/
def hasClassExact (marker : LC) (n : Node) : Bool :=
  (Node.classList n).any (fun cl => cl == marker)

/-- The wiki origin of `_generate_clubs.py` line 18. -/
def WIKI : LC := s2l "https://en.wikipedia.org"

/-- Function `is_wiki_article_link` of `_generate_clubs.py` lines 92-102. -/
def isWikiArticleLink (href : LC) : Bool :=
  !href.isEmpty &&
  leadsWith (s2l "/wiki/") href &&
  !containsSub (s2l "redlink=1") href &&
  !leadsWith (s2l "/wiki/File:") href &&
  !leadsWith (s2l "/wiki/Help:") href &&
  !leadsWith (s2l "/wiki/Special:") href

/-- Function `normalize_wiki_href` of lines 87-90 (`urljoin` restricted to the
absolute-path references the callers feed it). -/
def normalizeWikiHref (href : LC) : LC :=
  if leadsWith (s2l "http") href then href else WIKI ++ href

/-- Lowercased, space-joined text of all `th` descendants of a table,
`_generate_clubs.py` lines 122-123. -/
def headerText (table : Node) : LC :=
  joinSep (s2l " ")
    (((descN table).filter (Node.tagIs (s2l "th"))).map
      (fun th => lowerAll (getTextStrip (s2l " ") th)))

def thOrTd (n : Node) : Bool := Node.tagIs (s2l "th") n || Node.tagIs (s2l "td") n

def firstIdxGo (p : LC → Bool) : List LC → Nat → Option Nat
  | [], _ => none
  | x :: rest, i => if p x then some i else firstIdxGo p rest (i + 1)

/-- Team/club column search of lines 137-141: first header equal to
`"team"`/`"club"` or containing either as a substring. -/
def teamIdx (colNames : List LC) : Option Nat :=
  firstIdxGo (fun nmc => nmc == s2l "team" || nmc == s2l "club" ||
    containsSub (s2l "team") nmc || containsSub (s2l "club") nmc) colNames 0

/-- Candidate (name, url) extraction from one data row, lines 146-164: rows
whose cell misses, has no qualifying anchor, or an empty name are skipped. -/
def rowCandidate (ti : Nat) (tr : Node) : List (LC × LC) :=
  let tds := (descN tr).filter thOrTd
  if tds.length ≤ ti then []
  else
    match (descN (tds.getD ti (Node.text []))).find?
        (fun a => Node.tagIs (s2l "a") a && (Node.hrefAttr a).isSome) with
    | none => []
    | some a =>
      let href := (Node.hrefAttr a).getD []
      if isWikiArticleLink href then
        let nm := getTextStrip (s2l " ") a
        if nm.isEmpty then [] else [(nm, normalizeWikiHref href)]
      else []

/-- Candidates of one table, lines 121-164; `[]` when the table fails the
standings heuristics. -/
def tableCandidates (table : Node) : List (LC × LC) :=
  let ht := headerText table
  if !(containsSub (s2l "pos") ht &&
      (containsSub (s2l "team") ht || containsSub (s2l "club") ht)) then []
  else
    match (descN table).find? (Node.tagIs (s2l "tr")) with
    | none => []
    | some headerRow =>
      let colNames := ((descN headerRow).filter thOrTd).map
        (fun th => lowerAll (getTextStrip (s2l " ") th))
      match teamIdx colNames with
      | none => []
      | some ti =>
        ((((descN table).filter (Node.tagIs (s2l "tr"))).drop 1).map (rowCandidate ti)).flatten

/-- All candidate pairs of a document in encounter order (lines 118-164). -/
def candidatePairs (doc : NodeList) : List (LC × LC) :=
  (((descL doc).filter (fun t => Node.tagIs (s2l "table") t &&
      hasClassContaining (s2l "wikitable") t)).map tableCandidates).flatten

/-- URL de-duplication with a `seen` set, lines 166-175. -/
def dedupByUrl (seen : List LC) : List (LC × LC) → List (LC × LC)
  | [] => []
  | (nm, u) :: rest =>
    if seen.contains u then dedupByUrl seen rest
    else (nm, u) :: dedupByUrl (u :: seen) rest

/-- Function `scrape_club_links_from_league` of `_generate_clubs.py` lines 108-175,
applied to an already-parsed league document. -/
def scrapeClubLinks (doc : NodeList) : List (LC × LC) :=
  dedupByUrl [] (candidatePairs doc)

lemma dedupByUrl_sublist : ∀ (l : List (LC × LC)) (seen : List LC),
    List.Sublist (dedupByUrl seen l) l := by
  intro l
  induction l with
  | nil => intro seen; simp [dedupByUrl]
  | cons p rest ih =>
    intro seen
    obtain ⟨nm, u⟩ := p
    unfold dedupByUrl
    by_cases hc : seen.contains u
    · rw [if_pos hc]
      exact List.Sublist.cons _ (ih seen)
    · rw [if_neg hc]
      exact List.Sublist.cons₂ _ (ih (u :: seen))

lemma dedupByUrl_urls_nodup : ∀ (l : List (LC × LC)) (seen : List LC),
    ((dedupByUrl seen l).map Prod.snd).Nodup ∧
    ∀ u ∈ (dedupByUrl seen l).map Prod.snd, seen.contains u = false := by
  intro l
  induction l with
  | nil => intro seen; exact ⟨List.nodup_nil, by simp [dedupByUrl]⟩
  | cons p rest ih =>
    intro seen
    obtain ⟨nm, u⟩ := p
    unfold dedupByUrl
    by_cases hc : seen.contains u
    · rw [if_pos hc]
      exact ih seen
    · rw [if_neg hc]
      obtain ⟨hnd, hall⟩ := ih (u :: seen)
      constructor
      · rw [List.map_cons]
        refine List.nodup_cons.mpr ⟨?_, hnd⟩
        intro hu
        have := hall u hu
        simp at this
      · intro v hv
        rw [List.map_cons] at hv
        rcases List.mem_cons.mp hv with h' | h'
        · subst h'
          simpa using hc
        · have := hall v h'
          simp only [List.contains_cons, Bool.or_eq_false_iff] at this
          exact this.2

lemma mem_dedupByUrl : ∀ (l : List (LC × LC)) (seen : List LC) (p : LC × LC),
    p ∈ dedupByUrl seen l ↔
      (seen.contains p.2 = false ∧
        ∃ xs ys, l = xs ++ p :: ys ∧ ∀ q ∈ xs, q.2 ≠ p.2) := by
  intro l
  induction l with
  | nil =>
    intro seen p
    constructor
    · intro h; simp [dedupByUrl] at h
    · rintro ⟨-, xs, ys, h, -⟩
      cases xs <;> simp at h
  | cons hd rest ih =>
    intro seen p
    obtain ⟨nm, u⟩ := hd
    unfold dedupByUrl
    by_cases hc : seen.contains u
    · rw [if_pos hc, ih seen p]
      constructor
      · rintro ⟨hs, xs, ys, hdec, hpre⟩
        refine ⟨hs, (nm, u) :: xs, ys, by rw [hdec]; rfl, ?_⟩
        intro q hq
        rcases List.mem_cons.mp hq with h' | h'
        · subst h'
          intro he
          rw [← he] at hs
          rw [hs] at hc
          exact absurd hc (by simp)
        · exact hpre q h'
      · rintro ⟨hs, xs, ys, hdec, hpre⟩
        cases xs with
        | nil =>
          rw [List.nil_append] at hdec
          injection hdec with h1 h2
          rw [← h1] at hs
          rw [hs] at hc
          exact absurd hc (by simp)
        | cons x xs' =>
          rw [List.cons_append] at hdec
          injection hdec with h1 h2
          refine ⟨hs, xs', ys, h2, fun q hq => hpre q (by simp [hq])⟩
    · rw [if_neg hc]
      constructor
      · intro h
        rcases List.mem_cons.mp h with h' | h'
        · subst h'
          exact ⟨by simpa using hc, [], rest, rfl, by simp⟩
        · obtain ⟨hs, xs, ys, hdec, hpre⟩ := (ih (u :: seen) p).mp h'
          simp only [List.contains_cons, Bool.or_eq_false_iff] at hs
          refine ⟨hs.2, (nm, u) :: xs, ys, by rw [hdec]; rfl, ?_⟩
          intro q hq
          rcases List.mem_cons.mp hq with h'' | h''
          · subst h''
            have := hs.1
            simp only [beq_eq_false_iff_ne, ne_eq] at this
            exact fun he => this he.symm
          · exact hpre q h''
      · rintro ⟨hs, xs, ys, hdec, hpre⟩
        cases xs with
        | nil =>
          rw [List.nil_append] at hdec
          injection hdec with h1 h2
          subst h1
          simp
        | cons x xs' =>
          rw [List.cons_append] at hdec
          injection hdec with h1 h2
          refine List.mem_cons_of_mem _ ((ih (u :: seen) p).mpr ⟨?_, xs', ys, h2, ?_⟩)
          · simp only [List.contains_cons, Bool.or_eq_false_iff]
            have hne : u ≠ p.2 := by
              have := hpre x (by simp)
              rw [← h1] at this
              exact this
            refine ⟨?_, hs⟩
            simp only [beq_eq_false_iff_ne, ne_eq]
            exact fun he => hne he.symm
          · exact fun q hq => hpre q (by simp [hq])

/-- C5: the Document Table Extractor deduplicates by link with the first
occurrence winning and order preserved: the output is a subsequence of the
encounter-ordered candidate list, its links are pairwise distinct, and a pair
is emitted exactly when it is the first candidate carrying its link — a link
appearing in several qualifying rows or tables yields exactly one pair, with
the name of its first occurrence. -/
theorem c5_dedup_first_occurrence (doc : NodeList) :
    List.Sublist (scrapeClubLinks doc) (candidatePairs doc) ∧
    ((scrapeClubLinks doc).map Prod.snd).Nodup ∧
    ∀ p : LC × LC, p ∈ scrapeClubLinks doc ↔
      ∃ xs ys, candidatePairs doc = xs ++ p :: ys ∧ ∀ q ∈ xs, q.2 ≠ p.2 := by
  refine ⟨dedupByUrl_sublist _ [], (dedupByUrl_urls_nodup _ []).1, ?_⟩
  intro p
  rw [scrapeClubLinks, mem_dedupByUrl]
  constructor
  · rintro ⟨-, hs⟩; exact hs
  · intro hs; exact ⟨rfl, hs⟩

def rowW : Node := Node.elem (s2l "tr") [] none (nlist [
  Node.elem (s2l "td") [] none (nlist [Node.text (s2l "1")]),
  Node.elem (s2l "td") [] none (nlist [
    Node.elem (s2l "a") [] (some (s2l "/wiki/Arsenal_F.C.")) (nlist
      [Node.text (s2l "Arsenal F.C.")])])])

def headerRowW : Node := Node.elem (s2l "tr") [] none (nlist [
  Node.elem (s2l "th") [] none (nlist [Node.text (s2l "Pos")]),
  Node.elem (s2l "th") [] none (nlist [Node.text (s2l "Team")])])

def tableW : Node := Node.elem (s2l "table") [s2l "wikitable"] none
  (nlist [headerRowW, rowW])

/-- A league document with the same club row in two qualifying tables. -/
def docW : NodeList := nlist [tableW, tableW]

/-- Witness for C5: the duplicated Arsenal row of `docW` is emitted exactly
once, first occurrence first. -/
theorem c5_witness :
    (s2l "Arsenal F.C.", s2l "https://en.wikipedia.org/wiki/Arsenal_F.C.") ∈
      scrapeClubLinks docW ∧
    ((scrapeClubLinks docW).map Prod.snd).Nodup :=
  ⟨((c5_dedup_first_occurrence docW).2.2 _).mpr
      ⟨[], [(s2l "Arsenal F.C.", s2l "https://en.wikipedia.org/wiki/Arsenal_F.C.")],
        by decide, by simp⟩,
    (c5_dedup_first_occurrence docW).2.1⟩

-- ---------------------------------------------------------------------------
-- Coordinate Extractor (`_generate_clubs.py` lines 218-245)
-- ---------------------------------------------------------------------------

/-- Value of a decimal digit string. -/
def natOfDigits (ds : LC) : Nat := ds.foldl (fun a c => 10 * a + (c.toNat - 48)) 0

/-- Exact value of a significand/scale pair `(m, k)`, namely `m / 10^k` — the
real number a decimal literal denotes. -/
def decToQ (d : ℤ × ℕ) : ℚ := (d.1 : ℚ) / 10 ^ d.2

/-- Digits-with-optional-point part of a Python `float` literal:
`d+`, `d+.d*` or `.d+`; returns the exact value and the unconsumed rest. -/
def parseUnsignedDec (cs : LC) : Option ((ℤ × ℕ) × LC) :=
  let intPart := cs.takeWhile Char.isDigit
  let rest := cs.dropWhile Char.isDigit
  match rest with
  | '.' :: rest2 =>
    let frac := rest2.takeWhile Char.isDigit
    let rest3 := rest2.dropWhile Char.isDigit
    if intPart.isEmpty && frac.isEmpty then none
    else some (((natOfDigits intPart * 10 ^ frac.length + natOfDigits frac : ℤ),
      frac.length), rest3)
  | _ => if intPart.isEmpty then none else some (((natOfDigits intPart : ℤ), 0), rest)

def parseExpDigits (cs : LC) : Option (ℤ × LC) :=
  let ds := cs.takeWhile Char.isDigit
  if ds.isEmpty then none else some ((natOfDigits ds : ℤ), cs.dropWhile Char.isDigit)

def parseExpSign : LC → Option (ℤ × LC)
  | '+' :: rest => parseExpDigits rest
  | '-' :: rest => (parseExpDigits rest).map (fun p => (-p.1, p.2))
  | rest => parseExpDigits rest

def parseExpPart : LC → Option (ℤ × LC)
  | 'e' :: rest => parseExpSign rest
  | 'E' :: rest => parseExpSign rest
  | _ => none

/-- Applies a decimal exponent to a significand/scale pair. -/
def applyExp (d : ℤ × ℕ) (e : ℤ) : ℤ × ℕ :=
  if 0 ≤ e then
    (if e.toNat ≤ d.2 then (d.1, d.2 - e.toNat) else (d.1 * 10 ^ (e.toNat - d.2), 0))
  else (d.1, d.2 + (-e).toNat)

def parseMagDec (sgn : ℤ) (cs : LC) : Option (ℤ × ℕ) :=
  match parseUnsignedDec cs with
  | none => none
  | some (d, rest) =>
    match rest with
    | [] => some (sgn * d.1, d.2)
    | _ =>
      match parseExpPart rest with
      | some (e, []) =>
        let d2 := applyExp d e
        some (sgn * d2.1, d2.2)
      | _ => none

/-- Modelled from Python `float(s)` restricted to the decimal forms that occur
in coordinate markers: optional surrounding whitespace, optional sign,
`d+` / `d+.d*` / `.d+`, optional decimal exponent.  The remaining Python forms
(`inf`, `nan`, digit-group underscores) are outside the markers' vocabulary
and yield `none` here.  The exact value is returned as a significand/scale
pair. -/
def parseFloatDec (cs0 : LC) : Option (ℤ × ℕ) :=
  match stripWS cs0 with
  | '+' :: rest => parseMagDec 1 rest
  | '-' :: rest => parseMagDec (-1) rest
  | rest => parseMagDec 1 rest

/-- The marker-text parse of lines 231-233: split at `';'`, strip each part,
require exactly two parts (the tuple unpack), `float(...)` each; any failure
is the caught `except: pass`.  Values are returned as rationals. -/
def parseGeoText (txt : LC) : Option (ℚ × ℚ) :=
  match (splitWhen (fun c => c == ';') txt).map stripWS with
  | [a, b] =>
    match parseFloatDec a, parseFloatDec b with
    | some x, some y => some (decToQ x, decToQ y)
    | _, _ => none
  | _ => none

/-- Lines 237-243: a `span.geo-dec` marker is recognised but deliberately not
parsed — either way the fallback yields `none`. -/
def geoDecFallback (doc : NodeList) : Option (ℚ × ℚ) :=
  match (descL doc).find? (fun n => Node.tagIs (s2l "span") n &&
      hasClassExact (s2l "geo-dec") n) with
  | some _ => none
  | none => none

/-- Function `extract_coords_from_wiki_page` (lines 218-245) applied to an
already-parsed location document: parse the first `span.geo` marker;
on a missing marker or a failed parse fall back to the (always-`none`)
`geo-dec` branch. -/
def extractCoordsDoc (doc : NodeList) : Option (ℚ × ℚ) :=
  match (descL doc).find? (fun n => Node.tagIs (s2l "span") n &&
      hasClassExact (s2l "geo") n) with
  | some geo =>
    match parseGeoText (getTextStrip [] geo) with
    | some p => some p
    | none => geoDecFallback doc
  | none => geoDecFallback doc

lemma geoDecFallback_none (doc : NodeList) : geoDecFallback doc = none := by
  unfold geoDecFallback
  cases (descL doc).find? (fun n => Node.tagIs (s2l "span") n &&
      hasClassExact (s2l "geo-dec") n) <;> rfl

/-- C8: the Coordinate Extractor maps a found geo marker whose stripped text is
two `';'`-separated decimal numbers to exactly that (latitude, longitude)
pair; a found marker with malformed content yields `none` rather than raising
(the extractor is a total function); a document with no geo marker — in
particular one carrying only a degrees-minutes-seconds `geo-dec` marker —
yields `none`.  Concretely, `"51.508; -0.262"` parses to `(51.508, -0.262)`
and `"N/A"` parses to `none`. -/
theorem c8_coordinate_extraction :
    (∀ doc geo, (descL doc).find? (fun n => Node.tagIs (s2l "span") n &&
        hasClassExact (s2l "geo") n) = some geo →
      ∀ x y, parseGeoText (getTextStrip [] geo) = some (x, y) →
        extractCoordsDoc doc = some (x, y)) ∧
    (∀ doc geo, (descL doc).find? (fun n => Node.tagIs (s2l "span") n &&
        hasClassExact (s2l "geo") n) = some geo →
      parseGeoText (getTextStrip [] geo) = none → extractCoordsDoc doc = none) ∧
    (∀ doc, (descL doc).find? (fun n => Node.tagIs (s2l "span") n &&
        hasClassExact (s2l "geo") n) = none → extractCoordsDoc doc = none) ∧
    parseGeoText (s2l "51.508; -0.262") = some (51508 / 1000, -(262 / 1000)) ∧
    parseGeoText (s2l "N/A") = none := by
  refine ⟨?_, ?_, ?_, ?_, ?_⟩
  · intro doc geo hfind x y hparse
    unfold extractCoordsDoc
    rw [hfind]
    show (match parseGeoText (getTextStrip [] geo) with
      | some p => some p
      | none => geoDecFallback doc) = some (x, y)
    rw [hparse]
  · intro doc geo hfind hparse
    unfold extractCoordsDoc
    rw [hfind]
    show (match parseGeoText (getTextStrip [] geo) with
      | some p => some p
      | none => geoDecFallback doc) = none
    rw [hparse, geoDecFallback_none]
  · intro doc hfind
    unfold extractCoordsDoc
    rw [hfind, geoDecFallback_none]
  · have hsplit : (splitWhen (fun c => c == ';') (s2l "51.508; -0.262")).map stripWS =
        [s2l "51.508", s2l "-0.262"] := by decide
    have h1 : parseFloatDec (s2l "51.508") = some (51508, 3) := by decide
    have h2 : parseFloatDec (s2l "-0.262") = some (-262, 3) := by decide
    unfold parseGeoText
    rw [hsplit]
    show (match parseFloatDec (s2l "51.508"), parseFloatDec (s2l "-0.262") with
      | some x, some y => some (decToQ x, decToQ y)
      | _, _ => none) = some (51508 / 1000, -(262 / 1000))
    rw [h1, h2]
    show some (decToQ (51508, 3), decToQ (-262, 3)) = some (51508 / 1000, -(262 / 1000))
    have e1 : decToQ (51508, 3) = 51508 / 1000 := by
      unfold decToQ
      push_cast
      norm_num
    have e2 : decToQ (-262, 3) = -(262 / 1000) := by
      unfold decToQ
      push_cast
      norm_num
    rw [e1, e2]
  · have hsplit : (splitWhen (fun c => c == ';') (s2l "N/A")).map stripWS =
        [s2l "N/A"] := by decide
    unfold parseGeoText
    rw [hsplit]

/-- A location document carrying only the geo marker `"51.508; -0.262"`. -/
def geoDocW : NodeList := nlist [Node.elem (s2l "span") [s2l "geo"] none
  (nlist [Node.text (s2l "51.508; -0.262")])]

/-- A location document carrying only a `geo-dec` marker. -/
def geoDecDocW : NodeList := nlist [Node.elem (s2l "span") [s2l "geo-dec"] none
  (nlist [Node.text (s2l "51.507°N 0.127°W")])]

/-- Witness for C8: the concrete marker document resolves to `(51.508, -0.262)`
and the `geo-dec`-only document to `none`. -/
theorem c8_witness :
    extractCoordsDoc geoDocW = some (51508 / 1000, -(262 / 1000)) ∧
    extractCoordsDoc geoDecDocW = none := by
  constructor
  · refine c8_coordinate_extraction.1 geoDocW
      (Node.elem (s2l "span") [s2l "geo"] none (nlist [Node.text (s2l "51.508; -0.262")]))
      rfl (51508 / 1000) (-(262 / 1000)) ?_
    have hg : getTextStrip [] (Node.elem (s2l "span") [s2l "geo"] none
        (nlist [Node.text (s2l "51.508; -0.262")])) = s2l "51.508; -0.262" := by decide
    rw [hg]
    exact c8_coordinate_extraction.2.2.2.1
  · exact c8_coordinate_extraction.2.2.1 geoDecDocW rfl

-- ---------------------------------------------------------------------------
-- Scraping Pipeline (`_generate_clubs.py` lines 54-60, 181-212, 251-302)
-- ---------------------------------------------------------------------------

/-- The network layer: a fetch oracle mapping a URL to a raised transport
error (`requests` exception) or a parsed document; `http_get` plus
`BeautifulSoup` of the source. -/
structure Env where
  fetch : LC → Except LC NodeList

/-- The infobox row scan of `find_home_ground_link`, lines 194-212: the first
row having both a `th` and a `td` and a label among ground / home ground /
stadium; a qualifying article link yields (link text, absolute url);
otherwise non-blank plain text yields (text, no link); otherwise the scan
continues with the next row. -/
def groundFromRows : List Node → Option (LC × Option LC)
  | [] => none
  | tr :: rest =>
    match (descN tr).find? (Node.tagIs (s2l "th")),
        (descN tr).find? (Node.tagIs (s2l "td")) with
    | some th, some td =>
      (fun label =>
        if label == s2l "ground" || label == s2l "home ground" || label == s2l "stadium" then
          match (descN td).find?
              (fun a => Node.tagIs (s2l "a") a && (Node.hrefAttr a).isSome) with
          | some a =>
            if isWikiArticleLink ((Node.hrefAttr a).getD []) then
              some (getTextStrip (s2l " ") a,
                some (normalizeWikiHref ((Node.hrefAttr a).getD [])))
            else
              (fun txt => if txt.isEmpty then groundFromRows rest else some (txt, none))
                (getTextStrip (s2l " ") td)
          | none =>
            (fun txt => if txt.isEmpty then groundFromRows rest else some (txt, none))
              (getTextStrip (s2l " ") td)
        else groundFromRows rest)
      (lowerAll (getTextStrip (s2l " ") th))
    | _, _ => groundFromRows rest

/-- Function `find_home_ground_link`, stage 2 (lines 181-212): fetch the club page,
locate the infobox, scan its rows. -/
def findHomeGroundLink (env : Env) (clubUrl : LC) : Except LC (Option (LC × Option LC)) := do
  let doc ← env.fetch clubUrl
  match (descL doc).find? (fun n => Node.tagIs (s2l "table") n &&
      hasClassContaining (s2l "infobox") n) with
  | none => pure none
  | some infobox => pure (groundFromRows ((descN infobox).filter (Node.tagIs (s2l "tr"))))

/-- Function `extract_coords_from_wiki_page` with its network fetch (lines 218-245);
a missing or empty url short-circuits to `none` before any fetch. -/
def extractCoordsUrl (env : Env) (url : Option LC) : Except LC (Option (ℚ × ℚ)) :=
  match url with
  | none => pure none
  | some u =>
    if u.isEmpty then pure none
    else do
      let doc ← env.fetch u
      pure (extractCoordsDoc doc)

def findCloseParen : LC → Option LC
  | [] => none
  | ')' :: rest => some rest
  | '\n' :: _ => none
  | _ :: rest => findCloseParen rest

/-- One attempted match of `\s*\(.*?\)\s*` at the current position: optional
whitespace, an opening parenthesis, the shortest newline-free run to a closing
parenthesis, trailing whitespace. -/
def parenMatch (cs : LC) : Option LC :=
  match cs.dropWhile isSpaceC with
  | '(' :: rest =>
    match findCloseParen rest with
    | some rem => some (rem.dropWhile isSpaceC)
    | none => none
  | _ => none

/-- Python `re.sub(r"\s*\(.*?\)\s*", " ", s)` of `slugify`: each bracketed group and
its surrounding whitespace becomes a single space; the fuel (the input length)
bounds the left-to-right scan. -/
def stripParenGo : Nat → LC → LC
  | 0, s => s
  | _ + 1, [] => []
  | n + 1, c :: rest =>
    match parenMatch (c :: rest) with
    | some rem => ' ' :: stripParenGo n rem
    | none => c :: stripParenGo n rest

def stripParen (cs : LC) : LC := stripParenGo cs.length cs

/-- Python regex `\w` as used by `slugify` on raw (possibly non-ASCII) names:
ASCII word characters, with non-ASCII letters approximated by code points
≥ U+00C0. -/
def isSlugWord (c : Char) : Bool := isWordC c || decide (192 ≤ c.toNat)

/-- Function `slugify` of `_generate_clubs.py` lines 54-60: lowercase, drop bracketed
qualifiers, straighten the right single quote, strip `[^\w\s-]`, collapse
whitespace to `_`, strip outer underscores. -/
def slugifyL (nm : LC) : LC :=
  let s1 := lowerAll nm
  let s2 := stripParen s1
  let s3 := replaceSub s2 ['’'] ['\'']
  let s4 := s3.filter (fun c => isSlugWord c || isSpaceC c || c == '-')
  stripU (collapseSp s4)

/-- Round-half-to-even on exact rationals (the behaviour of Python `round` at
representable midpoints). -/
def roundHalfEven (q : ℚ) : ℤ :=
  if q - ⌊q⌋ < 1/2 then ⌊q⌋
  else if 1/2 < q - ⌊q⌋ then ⌊q⌋ + 1
  else if ⌊q⌋ % 2 = 0 then ⌊q⌋ else ⌊q⌋ + 1

/-- Python `round(x, 6)` modelled on exact rationals. -/
def roundTo6 (q : ℚ) : ℚ := (roundHalfEven (q * 1000000) : ℚ) / 1000000

/-- A canonical club record, the dict built in `main` lines 282-294. -/
structure ClubRecord where
  id : LC
  name : LC
  country : LC
  league : LC
  tier : Nat
  lat : ℚ
  lon : ℚ
  ground : LC
  aliases : List LC
  wikipedia : LC
  ground_wikipedia : Option LC

/-- The record construction of `main` lines 282-294. -/
def buildRecord (country code : LC) (tier : Nat) (clubName clubUrl groundName : LC)
    (groundUrl : Option LC) (lat lon : ℚ) : ClubRecord :=
  { id := slugifyL clubName, name := clubName, country := country, league := code,
    tier := tier, lat := roundTo6 lat, lon := roundTo6 lon, ground := groundName,
    aliases := buildAliases clubName, wikipedia := clubUrl,
    ground_wikipedia := groundUrl }

/-- The body of `main`'s per-club `try` block, lines 267-297: ground lookup,
coordinate lookup, record construction.  Structural misses yield `Except.ok
none` (the club is dropped with a log line); transport failures propagate as
`Except.error` to the caller's handlers. -/
def processClub (env : Env) (country code : LC) (tier : Nat) (clubName clubUrl : LC) :
    Except LC (Option ClubRecord) := do
  match ← findHomeGroundLink env clubUrl with
  | none => pure none
  | some (groundName, groundUrl) =>
    let coords ← (match groundUrl with
      | some gu => if gu.isEmpty then pure none else extractCoordsUrl env (some gu)
      | none => pure (none : Option (ℚ × ℚ)))
    match coords with
    | none => pure none
    | some (lat, lon) =>
      pure (some (buildRecord country code tier clubName clubUrl groundName groundUrl lat lon))

/-- Python `all_clubs[club_id] = record`: overwrite an existing key in place,
else append (insertion-ordered dict). -/
def upsert : List (LC × ClubRecord) → LC → ClubRecord → List (LC × ClubRecord)
  | [], k, v => [(k, v)]
  | (k', v') :: rest, k, v =>
    if k' == k then (k, v) :: rest else (k', v') :: upsert rest k v

/-- The per-league club loop of `main`, lines 264-302: every club is processed
inside `try`; `requests.HTTPError` and generic exceptions are caught, logged
and drop only that club, so the fold is total. -/
def runClubs (env : Env) (country code : LC) (tier : Nat)
    (links : List (LC × LC)) (acc : List (LC × ClubRecord)) : List (LC × ClubRecord) :=
  links.foldl (fun a p =>
    match processClub env country code tier p.1 p.2 with
    | Except.error _ => a
    | Except.ok none => a
    | Except.ok (some r) => upsert a (slugifyL p.1) r) acc

/-- C2: per-club failure isolation.  If handling one club raises a transport
error, the club loop behaves exactly as if that club were absent: the
accumulated records are unchanged by the failure and every remaining club of
the league is still processed; with only the failing club in the list the
accumulator comes back untouched.  That the loop returns a plain list (never
an `Except.error`) is the catch itself. -/
theorem c2_per_club_isolation (env : Env) (country code : LC) (tier : Nat)
    (p : LC × LC) (e : LC) (xs ys : List (LC × LC)) (acc : List (LC × ClubRecord))
    (h : processClub env country code tier p.1 p.2 = Except.error e) :
    runClubs env country code tier (xs ++ p :: ys) acc =
      runClubs env country code tier (xs ++ ys) acc ∧
    runClubs env country code tier [p] acc = acc := by
  constructor
  · simp only [runClubs, List.foldl_append, List.foldl_cons, h]
  · simp only [runClubs, List.foldl_cons, List.foldl_nil, h]

/-- A network layer in which every request raises. -/
def envDown : Env := { fetch := fun _ => Except.error (s2l "timeout") }

/-- Witness for C2: under a failing network the single-club league leaves the
accumulator untouched. -/
theorem c2_witness :
    processClub envDown (s2l "ENG") (s2l "PL") 1 (s2l "Arsenal") (s2l "u") =
      Except.error (s2l "timeout") ∧
    runClubs envDown (s2l "ENG") (s2l "PL") 1 [(s2l "Arsenal", s2l "u")] [] = [] :=
  ⟨rfl,
    (c2_per_club_isolation envDown (s2l "ENG") (s2l "PL") 1 (s2l "Arsenal", s2l "u")
      (s2l "timeout") [] [] [] rfl).2⟩

lemma roundHalfEven_le {q : ℚ} {z : ℤ} (h : q ≤ (z : ℚ)) : roundHalfEven q ≤ z := by
  have hfl : ⌊q⌋ ≤ z := by
    have h2 := Int.floor_le_floor h
    rwa [Int.floor_intCast] at h2
  have hq : (⌊q⌋ : ℚ) ≤ q := Int.floor_le q
  unfold roundHalfEven
  split
  · exact hfl
  · next hge =>
    push_neg at hge
    have hlt : ⌊q⌋ < z := by
      by_contra hzz
      push_neg at hzz
      have hc : (z : ℚ) ≤ (⌊q⌋ : ℚ) := by exact_mod_cast hzz
      linarith
    split
    · omega
    · split <;> omega

lemma le_roundHalfEven {q : ℚ} {z : ℤ} (h : (z : ℚ) ≤ q) : z ≤ roundHalfEven q := by
  have hfl : z ≤ ⌊q⌋ := Int.le_floor.mpr h
  unfold roundHalfEven
  split
  · exact hfl
  · split
    · omega
    · split <;> omega

lemma roundTo6_le {q : ℚ} {n : ℤ} (h : q ≤ (n : ℚ)) : roundTo6 q ≤ (n : ℚ) := by
  unfold roundTo6
  rw [div_le_iff₀ (by norm_num : (0:ℚ) < 1000000)]
  have h1 : q * 1000000 ≤ ((n * 1000000 : ℤ) : ℚ) := by
    push_cast
    nlinarith
  have h2 : roundHalfEven (q * 1000000) ≤ n * 1000000 := roundHalfEven_le h1
  calc (roundHalfEven (q * 1000000) : ℚ) ≤ ((n * 1000000 : ℤ) : ℚ) := by exact_mod_cast h2
    _ = (n : ℚ) * 1000000 := by push_cast; ring

lemma le_roundTo6 {q : ℚ} {n : ℤ} (h : (n : ℚ) ≤ q) : (n : ℚ) ≤ roundTo6 q := by
  unfold roundTo6
  rw [le_div_iff₀ (by norm_num : (0:ℚ) < 1000000)]
  have h1 : ((n * 1000000 : ℤ) : ℚ) ≤ q * 1000000 := by
    push_cast
    nlinarith
  have h2 : n * 1000000 ≤ roundHalfEven (q * 1000000) := le_roundHalfEven h1
  calc (n : ℚ) * 1000000 = ((n * 1000000 : ℤ) : ℚ) := by push_cast; ring
    _ ≤ (roundHalfEven (q * 1000000) : ℚ) := by exact_mod_cast h2

/-- A club page whose infobox row links the ground. -/
def clubDocC9 : NodeList := nlist [
  Node.elem (s2l "table") [s2l "infobox"] none (nlist [
    Node.elem (s2l "tr") [] none (nlist [
      Node.elem (s2l "th") [] none (nlist [Node.text (s2l "Ground")]),
      Node.elem (s2l "td") [] none (nlist [
        Node.elem (s2l "a") [] (some (s2l "/wiki/Big_Stadium"))
          (nlist [Node.text (s2l "Big Stadium")])])])])]

/-- A ground page whose geo marker carries out-of-range decimals. -/
def groundDocC9 : NodeList := nlist [Node.elem (s2l "span") [s2l "geo"] none
  (nlist [Node.text (s2l "300.5; 500.25")])]

/-- A network layer serving the club page at `"club"` and the out-of-range
ground page everywhere else. -/
def envC9 : Env :=
  { fetch := fun u => if u == s2l "club" then Except.ok clubDocC9 else Except.ok groundDocC9 }

/-- The record the pipeline emits for that club. -/
def recC9 : ClubRecord :=
  buildRecord (s2l "ENG") (s2l "PL") 1 (s2l "X") (s2l "club") (s2l "Big Stadium")
    (some (s2l "https://en.wikipedia.org/wiki/Big_Stadium"))
    (decToQ (3005, 1)) (decToQ (50025, 2))

/-- Counterexample for C9: nothing validates coordinate ranges — a ground page
whose geo marker reads `"300.5; 500.25"` (two perfectly well-formed decimal
numbers) makes the pipeline emit a ClubRecord with `lat = 300.5 > 90` and
`lon = 500.25 > 180`. -/
theorem c9_counterexample :
    processClub envC9 (s2l "ENG") (s2l "PL") 1 (s2l "X") (s2l "club") =
      Except.ok (some recC9) ∧ 90 < recC9.lat ∧ 180 < recC9.lon := by
  refine ⟨rfl, ?_, ?_⟩
  · show (90 : ℚ) < roundTo6 (decToQ (3005, 1))
    have h300 : ((300 : ℤ) : ℚ) ≤ decToQ (3005, 1) := by
      unfold decToQ
      push_cast
      norm_num
    have hr := le_roundTo6 h300
    have h90 : (90 : ℚ) < ((300 : ℤ) : ℚ) := by norm_num
    linarith
  · show (180 : ℚ) < roundTo6 (decToQ (50025, 2))
    have h500 : ((500 : ℤ) : ℚ) ≤ decToQ (50025, 2) := by
      unfold decToQ
      push_cast
      norm_num
    have hr := le_roundTo6 h500
    have h180 : (180 : ℚ) < ((500 : ℤ) : ℚ) := by norm_num
    linarith

/-- C9 amended: the pipeline performs no geographic-range validation — the
emitted record carries the parsed coordinates rounded to six decimal places,
so its lat/lon lie in [-90, 90] / [-180, 180] exactly when the parsed values
do.  Whenever the parsed latitude and longitude are within range, the
constructed record's fields are within range (six-decimal rounding cannot
leave either interval). -/
theorem c9_record_ranges_amended (country code : LC) (tier : Nat)
    (clubName clubUrl groundName : LC) (groundUrl : Option LC) (lat lon : ℚ)
    (h1 : -90 ≤ lat) (h2 : lat ≤ 90) (h3 : -180 ≤ lon) (h4 : lon ≤ 180) :
    -90 ≤ (buildRecord country code tier clubName clubUrl groundName groundUrl
        lat lon).lat ∧
    (buildRecord country code tier clubName clubUrl groundName groundUrl lat lon).lat ≤ 90 ∧
    -180 ≤ (buildRecord country code tier clubName clubUrl groundName groundUrl
        lat lon).lon ∧
    (buildRecord country code tier clubName clubUrl groundName groundUrl lat lon).lon ≤ 180 := by
  refine ⟨?_, ?_, ?_, ?_⟩
  · show (-90 : ℚ) ≤ roundTo6 lat
    have := le_roundTo6 (show ((-90 : ℤ) : ℚ) ≤ lat by exact_mod_cast h1)
    exact_mod_cast this
  · show roundTo6 lat ≤ (90 : ℚ)
    have := roundTo6_le (show lat ≤ ((90 : ℤ) : ℚ) by exact_mod_cast h2)
    exact_mod_cast this
  · show (-180 : ℚ) ≤ roundTo6 lon
    have := le_roundTo6 (show ((-180 : ℤ) : ℚ) ≤ lon by exact_mod_cast h3)
    exact_mod_cast this
  · show roundTo6 lon ≤ (180 : ℚ)
    have := roundTo6_le (show lon ≤ ((180 : ℤ) : ℚ) by exact_mod_cast h4)
    exact_mod_cast this

/-- Witness for the amended C9 at in-range coordinates. -/
theorem c9_amended_witness :
    -90 ≤ (buildRecord (s2l "ENG") (s2l "PL") 1 (s2l "X") (s2l "u") (s2l "G") none
        (515 / 10) (-(1 / 10))).lat ∧
    (buildRecord (s2l "ENG") (s2l "PL") 1 (s2l "X") (s2l "u") (s2l "G") none
        (515 / 10) (-(1 / 10))).lat ≤ 90 ∧
    -180 ≤ (buildRecord (s2l "ENG") (s2l "PL") 1 (s2l "X") (s2l "u") (s2l "G") none
        (515 / 10) (-(1 / 10))).lon ∧
    (buildRecord (s2l "ENG") (s2l "PL") 1 (s2l "X") (s2l "u") (s2l "G") none
        (515 / 10) (-(1 / 10))).lon ≤ 180 :=
  c9_record_ranges_amended (s2l "ENG") (s2l "PL") 1 (s2l "X") (s2l "u") (s2l "G") none
    (515 / 10) (-(1 / 10)) (by norm_num) (by norm_num) (by norm_num) (by norm_num)
